import Mathlib

/-!
Shallow embedding of the session-scoped vector index subsystem of
`app/core/retriever.py` (functions `normalize_embeddings`, `build_index`,
`load_index`, `retrieve_chunks`), together with models of its two external
dependencies: the embedding capability `app.core.embedder.embed_texts`
(absent from the sources; modelled from the spec as an abstract per-string
function) and the exact inner-product index (`faiss.IndexFlatIP`:
bulk append plus exhaustive top-k inner-product search, results in
descending-score order, ties by ascending insertion position, `-1` padding
when more results are requested than vectors exist, and an error on `k = 0`
or on a dimension mismatch).

Numeric model: a float32 scalar is `NFloat := Option ℝ` — `some x` is the
finite value `x` at ideal (real) precision, `none` is a non-finite value
(NaN or ±Inf).  Arithmetic propagates `none`, and division by (finite)
zero produces `none`, matching the way numpy turns `x / 0` into `inf`/`nan`
instead of raising.  Rounding error is not modelled.

Strings are `List Char`; Python slicing `s[:n]` is `List.take n`.
The persisted artifacts (`faiss.index` file plus `chunks.pkl` file, which
the code always writes together) are modelled as a map from session id to
an optional pair.  Fallible operations return `Except String`; the
exception text names the Python exception being modelled.
-/

/-- A float32 scalar: `some x` is a finite value, `none` is NaN/Inf. -/
abbrev NFloat : Type := Option ℝ

/-- Addition; non-finite operands propagate. -/
def nfAdd : NFloat → NFloat → NFloat
  | some a, some b => some (a + b)
  | _, _ => none

/-- Multiplication; non-finite operands propagate. -/
def nfMul : NFloat → NFloat → NFloat
  | some a, some b => some (a * b)
  | _, _ => none

/-- Division.  Division by finite zero yields a non-finite value (numpy
produces `inf`/`nan` with a warning, never an exception). -/
noncomputable def nfDiv : NFloat → NFloat → NFloat
  | some a, some b => if b = 0 then none else some (a / b)
  | _, _ => none

/-- Square root; negative input yields NaN (numpy warning, not an error). -/
noncomputable def nfSqrt : NFloat → NFloat
  | some a => if a < 0 then none else some (Real.sqrt a)
  | none => none

/-- `numpy` sum of a vector of scalars (sum of the empty vector is `0`). -/
def nfSum (l : List NFloat) : NFloat := l.foldr nfAdd (some 0)

/-- Sum of squares of a row. -/
def nfSumSq (row : List NFloat) : NFloat := nfSum (row.map (fun x => nfMul x x))

/-- `np.linalg.norm(row)`: Euclidean norm of one row. -/
noncomputable def nfNorm (row : List NFloat) : NFloat := nfSqrt (nfSumSq row)

/-- One chunk or query: Python `str` as a list of characters. -/
abbrev Str : Type := List Char

/-- Session identifier (an opaque string in the source). -/
abbrev SessionId : Type := String

/-- Modelled from the spec: the index artifact, `faiss.IndexFlatIP` — a
fixed dimensionality chosen at construction and the stored vectors in
insertion order ("a persisted structure supporting (a) bulk append of
normalized vectors, (b) exhaustive inner-product nearest-neighbor search
returning the top-k row indices and their scores"). -/
structure FaissIndex where
  dim : Nat
  vecs : List (List NFloat)

/-- The persisted artifacts: for each session either nothing, or the pair
(serialized index, pickled chunk list) that `build_index` writes together
under `data/session_<id>/backup/`. -/
abbrev Store : Type := SessionId → Option (FaissIndex × List Str)

/-- A store with no persisted artifacts at all. -/
def emptyStore : Store := fun _ => none

/-- Overwrite the artifact pair persisted for one session
(`faiss.write_index` plus `pickle.dump` to the session's two paths). -/
def storeUpdate (store : Store) (session_id : SessionId)
    (p : FaissIndex × List Str) : Store :=
  fun t => if t = session_id then some p else store t

/-- `normalize_embeddings` applied to a single row: divide every element by
the row's Euclidean norm (`vectors / norms` broadcasts the row norm). -/
noncomputable def normRow (row : List NFloat) : List NFloat :=
  row.map (fun x => nfDiv x (nfNorm row))

/-- `normalize_embeddings(vectors)` from `retriever.py`:
`norms = np.linalg.norm(vectors, axis=1, keepdims=True); return vectors / norms`.
Row-wise: every element of a row is divided by that row's norm.  There is
no zero-norm check: a zero row is divided by zero. -/
noncomputable def normalize_embeddings (vectors : List (List NFloat)) :
    List (List NFloat) :=
  vectors.map normRow

/-- Whether a list of rows forms a rectangular matrix (all rows the same
width), which is what `np.array(vectors).astype("float32")` requires; a
ragged list raises there, before normalization. -/
def sameWidths : List (List NFloat) → Bool
  | [] => true
  | r :: rest => rest.all (fun x => x.length = r.length)

/-- `np.array(vectors).astype("float32")`: validates rectangularity. -/
def toMatrix (vs : List (List NFloat)) : Except String (List (List NFloat)) :=
  if sameWidths vs then .ok vs else .error "ValueError: ragged array"

/-- Modelled from the spec: `faiss.IndexFlatIP.add` — bulk append of rows;
faiss rejects rows whose width differs from the index dimensionality
("every subsequent batch's vectors must match this width or the build
fails with a dimension-mismatch error"). -/
def faissAdd (index : FaissIndex) (vs : List (List NFloat)) :
    Except String FaissIndex :=
  if vs.all (fun v => v.length = index.dim) then
    .ok ⟨index.dim, index.vecs ++ vs⟩
  else
    .error "AssertionError: d == index.d"

/-- Modelled from the spec: `app.core.embedder.embed_texts` (the module
`app/core/embedder.py` is absent from the sources) — "embed(texts) ->
vectors, where len(vectors) == len(texts) and every vector has the same
dimension within one call".  The capability itself is an abstract per-text
function `embed`, applied elementwise; nothing is assumed about the
vectors it returns. -/
def embed_texts (embed : Str → List NFloat) (texts : List Str) :
    List (List NFloat) :=
  texts.map embed

/-- One iteration of the batch loop of `build_index`, at start offset `i`:
`batch = text_chunks[i:i + batch_size]`, embed it, convert to a float32
matrix, normalize, on the first iteration (`i == 0`, when no index exists
yet) create the index with the observed vector width, `index.add(vectors)`,
and `all_chunks.extend(batch)`.  An empty first batch makes
`vectors.shape[1]` fail (and leaves `index` unbound). -/
noncomputable def buildStep (embed : Str → List NFloat) (text_chunks : List Str)
    (batch_size i : Nat) (oindex : Option FaissIndex) (all_chunks : List Str) :
    Except String (FaissIndex × List Str) :=
  let batch := (text_chunks.drop i).take batch_size
  match toMatrix (embed_texts embed batch) with
  | .error e => .error e
  | .ok mat =>
    let vectors := normalize_embeddings mat
    let index0 : Except String FaissIndex :=
      match oindex with
      | none =>
        match vectors.head? with
        | none => .error "IndexError: tuple index out of range"
        | some r => .ok ⟨r.length, []⟩
      | some index => .ok index
    match index0 with
    | .error e => .error e
    | .ok index =>
      match faissAdd index vectors with
      | .error e => .error e
      | .ok index1 => .ok (index1, all_chunks ++ batch)

/-- The batch loop of `build_index`, over the remaining start offsets.
When the loop ends, `faiss.write_index(index, ...)` is reached; if the loop
body never ran, the name `index` is unbound and that line raises. -/
noncomputable def buildLoop (embed : Str → List NFloat) (text_chunks : List Str)
    (batch_size : Nat) :
    List Nat → Option FaissIndex → List Str →
    Except String (FaissIndex × List Str)
  | [], none, _ => .error "NameError: name index is not defined"
  | [], some index, all_chunks => .ok (index, all_chunks)
  | i :: rest, oindex, all_chunks =>
    match buildStep embed text_chunks batch_size i oindex all_chunks with
    | .error e => .error e
    | .ok (index, acc) => buildLoop embed text_chunks batch_size rest (some index) acc

/-- The start offsets of Python `range(0, c, b)` for `b > 0`:
`0, b, 2b, ...` strictly below `c`; there are `⌈c / b⌉` of them. -/
def batchStarts (c b : Nat) : List Nat :=
  (List.range ((c + b - 1) / b)).map (fun j => j * b)

/-- `build_index(text_chunks, session_id, force_rebuild, batch_size)` from
`retriever.py`.  If both artifact files for the session exist and
`force_rebuild` is false, return immediately without touching anything.
Otherwise loop over `range(0, min(len(text_chunks), 1000), batch_size)`
(the comment in the source calls this a hard limit of 1000 chunks; note the
last batch is still `text_chunks[i:i + batch_size]`, so it may run past
offset 1000), then persist the index and the accumulated chunk list for the
session.  A zero `batch_size` makes `range` itself raise.  Any exception is
re-raised to the caller. -/
noncomputable def build_index (embed : Str → List NFloat) (store : Store)
    (text_chunks : List Str) (session_id : SessionId)
    (force_rebuild : Bool) (batch_size : Nat) : Except String Store :=
  if (store session_id).isSome && !force_rebuild then
    .ok store
  else if batch_size = 0 then
    .error "ValueError: range() arg 3 must not be zero"
  else
    match buildLoop embed text_chunks batch_size
        (batchStarts (min text_chunks.length 1000) batch_size) none [] with
    | .ok (index, all_chunks) =>
      .ok (storeUpdate store session_id (index, all_chunks))
    | .error e => .error e

/-- `load_index(session_id)` from `retriever.py`: raise `FileNotFoundError`
when the artifacts are absent, otherwise deserialize and return the pair.
No validation of any kind is performed on the loaded pair. -/
def load_index (store : Store) (session_id : SessionId) :
    Except String (FaissIndex × List Str) :=
  match store session_id with
  | none => .error "FileNotFoundError: FAISS index not found."
  | some p => .ok p

/-- Ordering on scalars used when ranking scores: every finite value is
ordered as in `ℝ`, and a non-finite score sorts below every finite one
(claims only ever exercise finite scores). -/
def nfLe : NFloat → NFloat → Prop
  | none, _ => True
  | some _, none => False
  | some a, some b => a ≤ b

/-- Boolean form of `nfLe`, used as the sort comparator. -/
noncomputable def nfLeB : NFloat → NFloat → Bool
  | none, _ => true
  | some _, none => false
  | some a, some b => decide (a ≤ b)

/-- Inner product of two rows of equal width. -/
def ipNF (u v : List NFloat) : NFloat := nfSum (List.zipWith nfMul u v)

/-- The similarity score of stored row `i` against a query row. -/
def simScore (index : FaissIndex) (q : List NFloat) (i : Nat) : NFloat :=
  ipNF (index.vecs.getD i []) q

/-- Modelled from the spec: the result-row ranking of
`faiss.IndexFlatIP.search` — all stored row positions, sorted by
descending inner-product score, ties broken by ascending insertion
position ("break by ascending original insertion position (stable,
deterministic)"); the first `k` of them are returned. -/
noncomputable def topIndices (index : FaissIndex) (q : List NFloat) (k : Nat) :
    List Nat :=
  ((List.range index.vecs.length).mergeSort
    (fun i j => nfLeB (simScore index q j) (simScore index q i))).take k

/-- Modelled from the spec: `faiss.IndexFlatIP.search` on a single query
row — errors on a query-width mismatch or on `k = 0`, returns the top
`min k ntotal` row positions in descending-score order, padded with `-1`
up to `k` when fewer than `k` vectors are stored. -/
noncomputable def faissSearch (index : FaissIndex) (q : List NFloat) (k : Nat) :
    Except String (List Int) :=
  if q.length ≠ index.dim then .error "AssertionError: d == index.d"
  else if k = 0 then .error "AssertionError: k > 0"
  else .ok ((topIndices index q k).map (fun i : Nat => (i : Int)) ++
            List.replicate (k - index.vecs.length) (-1))

/-- Python list indexing `chunks[i]` with an `int` index: non-negative
indices count from the front, negative indices from the back, anything out
of range raises `IndexError`. -/
def pyGet (xs : List Str) (i : Int) : Except String Str :=
  if 0 ≤ i then
    if i.toNat < xs.length then .ok (xs.getD i.toNat []) else .error "IndexError"
  else
    if (-i).toNat ≤ xs.length then
      .ok (xs.getD (xs.length - (-i).toNat) [])
    else .error "IndexError"

/-- The body of the `try` block of `retrieve_chunks(query, session_id, k)`:
load the artifacts, truncate the query to its first 200 characters, embed
and normalize it, search for `min(k, len(chunks))` neighbors, and map every
returned row position to `chunks[i][:500]`. -/
noncomputable def retrieve_chunks_core (embed : Str → List NFloat)
    (store : Store) (query : Str) (session_id : SessionId) (k : Nat) :
    Except String (List Str) :=
  match load_index store session_id with
  | .error e => .error e
  | .ok (index, chunks) =>
    match faissSearch index
        ((normalize_embeddings (embed_texts embed [query.take 200])).getD 0 [])
        (min k chunks.length) with
    | .error e => .error e
    | .ok is =>
      is.mapM (fun i =>
        match pyGet chunks i with
        | .error e => .error e
        | .ok c => .ok (c.take 500))

/-- `retrieve_chunks(query, session_id, k)` from `retriever.py`: the whole
body sits in a `try` whose `except Exception` clause returns `[]`, so every
failure — missing artifacts included — is swallowed into an empty result
list. -/
noncomputable def retrieve_chunks (embed : Str → List NFloat) (store : Store)
    (query : Str) (session_id : SessionId) (k : Nat) : List Str :=
  match retrieve_chunks_core embed store query session_id k with
  | .ok results => results
  | .error _ => []

/-! ## Scalar-level lemmas -/

/-- Ideal sum of squares of a finite real row. -/
def sumSq (r : List ℝ) : ℝ := (r.map (fun x => x * x)).sum

theorem nfSum_map_some (l : List ℝ) : nfSum (l.map some) = some l.sum := by
  induction l with
  | nil => simp [nfSum]
  | cons x xs ih =>
    simp only [List.map_cons, nfSum, List.foldr_cons, List.sum_cons]
    have : nfSum (xs.map some) = some xs.sum := ih
    simp only [nfSum] at this
    rw [this]
    simp [nfAdd]

theorem nfSumSq_map_some (r : List ℝ) :
    nfSumSq (r.map some) = some (sumSq r) := by
  have : (r.map some).map (fun x => nfMul x x) = (r.map (fun x => x * x)).map some := by
    simp [List.map_map, Function.comp, nfMul]
  rw [nfSumSq, this, nfSum_map_some, sumSq]

theorem sumSq_nonneg (r : List ℝ) : 0 ≤ sumSq r := by
  refine List.sum_nonneg ?_
  intro x hx
  obtain ⟨y, _, rfl⟩ := List.mem_map.mp hx
  exact mul_self_nonneg y

theorem nfNorm_map_some (r : List ℝ) :
    nfNorm (r.map some) = some (Real.sqrt (sumSq r)) := by
  rw [nfNorm, nfSumSq_map_some, nfSqrt]
  simp [not_lt.mpr (sumSq_nonneg r)]

theorem normRow_map_some (r : List ℝ) (h : sumSq r ≠ 0) :
    normRow (r.map some) =
      r.map (fun x => some (x / Real.sqrt (sumSq r))) := by
  have hpos : 0 < sumSq r := lt_of_le_of_ne (sumSq_nonneg r) (Ne.symm h)
  have hs : Real.sqrt (sumSq r) ≠ 0 := ne_of_gt (Real.sqrt_pos.mpr hpos)
  rw [normRow, nfNorm_map_some, List.map_map]
  refine List.map_congr_left ?_
  intro x _
  simp [Function.comp, nfDiv, hs]

theorem sumSq_div (r : List ℝ) (c : ℝ) :
    sumSq (r.map (fun x => x / c)) = sumSq r / (c * c) := by
  induction r with
  | nil => simp [sumSq]
  | cons x xs ih =>
    simp only [List.map_cons, sumSq, List.sum_cons] at ih ⊢
    rw [ih, div_mul_div_comm, div_add_div_same]

theorem nfNorm_normRow (r : List ℝ) (h : sumSq r ≠ 0) :
    nfNorm (normRow (r.map some)) = some 1 := by
  rw [normRow_map_some r h]
  have hcomp : r.map (fun x => some (x / Real.sqrt (sumSq r))) =
      (r.map (fun x => x / Real.sqrt (sumSq r))).map some := by
    simp [List.map_map, Function.comp]
  rw [hcomp, nfNorm_map_some, sumSq_div]
  rw [Real.mul_self_sqrt (sumSq_nonneg r), div_self h, Real.sqrt_one]

theorem normRow_unit : normRow [some (1 : ℝ)] = [some 1] := by
  have h := normRow_map_some [(1 : ℝ)] (by simp [sumSq])
  simp only [List.map_cons, List.map_nil] at h
  rw [h]
  norm_num [sumSq, Real.sqrt_one]

theorem nfNorm_unit : nfNorm [some (1 : ℝ)] = some 1 := by
  have h := nfNorm_map_some [(1 : ℝ)]
  simp only [List.map_cons, List.map_nil] at h
  rw [h]
  norm_num [sumSq, Real.sqrt_one]

theorem normRow_of_zero_norm (row : List NFloat) (hz : nfNorm row = some 0) :
    normRow row = List.replicate row.length none := by
  rw [normRow, hz]
  have : ∀ x : NFloat, nfDiv x (some 0) = none := by
    intro x
    cases x with
    | none => rfl
    | some a => simp [nfDiv]
  calc row.map (fun x => nfDiv x (some 0)) = row.map (fun _ => (none : NFloat)) := by
        exact List.map_congr_left (fun x _ => this x)
    _ = List.replicate row.length none := by
        simp [List.map_const']

/-! ## Build-loop lemmas -/

/-- The central alignment invariant: row `i` of the index is exactly the
normalized embedding of metadata entry `i` (in particular the lengths
agree). -/
def Aligned (embed : Str → List NFloat) (index : FaissIndex)
    (meta : List Str) : Prop :=
  index.vecs = meta.map (fun c => normRow (embed c))

/-- The in-memory state of the build loop before a step: either no index
exists yet (first iteration, empty metadata), or an index aligned with the
accumulated metadata. -/
def OptAligned (embed : Str → List NFloat) :
    Option FaissIndex → List Str → Prop
  | none, acc => acc = []
  | some index, acc => Aligned embed index acc

theorem aligned_length {embed index meta} (h : Aligned embed index meta) :
    index.vecs.length = meta.length := by
  rw [Aligned] at h
  rw [h, List.length_map]

theorem normalize_embed_texts (embed : Str → List NFloat) (batch : List Str) :
    normalize_embeddings (embed_texts embed batch) =
      batch.map (fun c => normRow (embed c)) := by
  simp [normalize_embeddings, embed_texts, List.map_map, Function.comp]

theorem buildStep_ok_elim {embed text_chunks batch_size i oindex all_chunks index1 acc1}
    (h : buildStep embed text_chunks batch_size i oindex all_chunks =
      .ok (index1, acc1)) :
    acc1 = all_chunks ++ (text_chunks.drop i).take batch_size ∧
    ∃ index0 : FaissIndex,
      index1.vecs = index0.vecs ++
        ((text_chunks.drop i).take batch_size).map (fun c => normRow (embed c)) ∧
      index1.dim = index0.dim ∧
      ((oindex = some index0) ∨ (oindex = none ∧ index0.vecs = [])) := by
  rw [buildStep] at h
  set batch := (text_chunks.drop i).take batch_size with hbatch
  rcases htm : toMatrix (embed_texts embed batch) with e | mat
  · rw [htm] at h; exact absurd h (by simp)
  · rw [htm] at h
    have hmat : mat = embed_texts embed batch := by
      rw [toMatrix] at htm
      by_cases hw : sameWidths (embed_texts embed batch)
      · simp [hw] at htm; exact htm.symm
      · simp [hw] at htm
    simp only at h
    cases oindex with
    | none =>
      rcases hhd : (normalize_embeddings mat).head? with _ | r
      · rw [hhd] at h; exact absurd h (by simp)
      · rw [hhd] at h
        simp only at h
        rcases hadd : faissAdd ⟨r.length, []⟩ (normalize_embeddings mat) with e | index2
        · rw [hadd] at h; exact absurd h (by simp)
        · rw [hadd] at h
          simp only [Except.ok.injEq, Prod.mk.injEq] at h
          obtain ⟨h1, h2⟩ := h
          rw [faissAdd] at hadd
          by_cases hd : (normalize_embeddings mat).all (fun v => v.length = r.length)
          · simp only [hd, if_true, Except.ok.injEq] at hadd
            refine ⟨h2.symm, ⟨r.length, []⟩, ?_, ?_, Or.inr ⟨rfl, rfl⟩⟩
            · rw [← h1, ← hadd]
              simp [hmat, normalize_embed_texts]
            · rw [← h1, ← hadd]
          · simp [hd] at hadd
    | some index0 =>
      simp only at h
      rcases hadd : faissAdd index0 (normalize_embeddings mat) with e | index2
      · rw [hadd] at h; exact absurd h (by simp)
      · rw [hadd] at h
        simp only [Except.ok.injEq, Prod.mk.injEq] at h
        obtain ⟨h1, h2⟩ := h
        rw [faissAdd] at hadd
        by_cases hd : (normalize_embeddings mat).all (fun v => v.length = index0.dim)
        · simp only [hd, if_true, Except.ok.injEq] at hadd
          refine ⟨h2.symm, index0, ?_, ?_, Or.inl rfl⟩
          · rw [← h1, ← hadd]
            simp [hmat, normalize_embed_texts]
          · rw [← h1, ← hadd]
        · simp [hd] at hadd

theorem buildStep_aligned {embed text_chunks batch_size i oindex all_chunks index1 acc1}
    (hinv : OptAligned embed oindex all_chunks)
    (h : buildStep embed text_chunks batch_size i oindex all_chunks =
      .ok (index1, acc1)) :
    Aligned embed index1 acc1 := by
  obtain ⟨hacc, index0, hvecs, _, hcase⟩ := buildStep_ok_elim h
  rcases hcase with hsome | ⟨hnone, hempty⟩
  · subst hsome
    simp only [OptAligned] at hinv
    rw [Aligned, hacc, hvecs, hinv, List.map_append]
  · subst hnone
    simp only [OptAligned] at hinv
    rw [Aligned, hacc, hvecs, hempty, hinv]
    simp

theorem buildLoop_aligned {embed text_chunks batch_size} :
    ∀ {starts : List Nat} {oindex acc index1 acc1},
    OptAligned embed oindex acc →
    buildLoop embed text_chunks batch_size starts oindex acc = .ok (index1, acc1) →
    Aligned embed index1 acc1 := by
  intro starts
  induction starts with
  | nil =>
    intro oindex acc index1 acc1 hinv h
    cases oindex with
    | none => exact absurd h (by simp [buildLoop])
    | some index =>
      rw [buildLoop] at h
      simp only [Except.ok.injEq, Prod.mk.injEq] at h
      obtain ⟨h1, h2⟩ := h
      simp only [OptAligned] at hinv
      rw [← h1, ← h2]
      exact hinv
  | cons i rest ih =>
    intro oindex acc index1 acc1 hinv h
    rw [buildLoop] at h
    rcases hstep : buildStep embed text_chunks batch_size i oindex acc with e | p
    · rw [hstep] at h; exact absurd h (by simp)
    · rw [hstep] at h
      obtain ⟨index2, acc2⟩ := p
      have hal : Aligned embed index2 acc2 := buildStep_aligned hinv hstep
      exact ih (show OptAligned embed (some index2) acc2 from hal) h

theorem buildLoop_acc {embed text_chunks batch_size} :
    ∀ {starts : List Nat} {oindex acc index1 acc1},
    buildLoop embed text_chunks batch_size starts oindex acc = .ok (index1, acc1) →
    acc1 = acc ++ starts.flatMap (fun i => (text_chunks.drop i).take batch_size) := by
  intro starts
  induction starts with
  | nil =>
    intro oindex acc index1 acc1 h
    cases oindex with
    | none => exact absurd h (by simp [buildLoop])
    | some index =>
      rw [buildLoop] at h
      simp only [Except.ok.injEq, Prod.mk.injEq] at h
      simp [← h.2]
  | cons i rest ih =>
    intro oindex acc index1 acc1 h
    rw [buildLoop] at h
    rcases hstep : buildStep embed text_chunks batch_size i oindex acc with e | p
    · rw [hstep] at h; exact absurd h (by simp)
    · rw [hstep] at h
      obtain ⟨index2, acc2⟩ := p
      have hacc2 : acc2 = acc ++ (text_chunks.drop i).take batch_size :=
        (buildStep_ok_elim hstep).1
      have := ih h
      rw [this, hacc2, List.flatMap_cons, List.append_assoc]

theorem flatMap_range_take (text_chunks : List Str) (b : Nat) :
    ∀ m : Nat,
    ((List.range m).map (fun j => j * b)).flatMap
      (fun i => (text_chunks.drop i).take b) = text_chunks.take (m * b) := by
  intro m
  induction m with
  | zero => simp
  | succ n ih =>
    rw [List.range_succ, List.map_append, List.flatMap_append, ih]
    simp only [List.map_cons, List.map_nil, List.flatMap_cons, List.flatMap_nil,
      List.append_nil]
    rw [← List.take_add]
    congr 1
    ring

theorem batchStarts_flatMap (text_chunks : List Str) (c b : Nat) :
    (batchStarts c b).flatMap (fun i => (text_chunks.drop i).take b) =
      text_chunks.take (((c + b - 1) / b) * b) := by
  rw [batchStarts, flatMap_range_take]

theorem build_index_ok_elim {embed store text_chunks session_id force_rebuild batch_size st'}
    (h : build_index embed store text_chunks session_id force_rebuild batch_size =
      .ok st') :
    ((store session_id).isSome ∧ force_rebuild = false ∧ st' = store) ∨
    (batch_size ≠ 0 ∧ ∃ index acc,
      buildLoop embed text_chunks batch_size
        (batchStarts (min text_chunks.length 1000) batch_size) none [] =
        .ok (index, acc) ∧
      st' = storeUpdate store session_id (index, acc)) := by
  rw [build_index] at h
  by_cases hfast : (store session_id).isSome && !force_rebuild
  · left
    rw [if_pos hfast] at h
    simp only [Except.ok.injEq] at h
    rcases Bool.and_eq_true_iff.mp hfast with ⟨h1, h2⟩
    exact ⟨h1, by simpa using h2, h.symm⟩
  · right
    rw [if_neg hfast] at h
    by_cases hb : batch_size = 0
    · rw [if_pos hb] at h; exact absurd h (by simp)
    · rw [if_neg hb] at h
      refine ⟨hb, ?_⟩
      rcases hloop : buildLoop embed text_chunks batch_size
          (batchStarts (min text_chunks.length 1000) batch_size) none [] with e | p
      · rw [hloop] at h; exact absurd h (by simp)
      · rw [hloop] at h
        obtain ⟨index, acc⟩ := p
        simp only [Except.ok.injEq] at h
        exact ⟨index, acc, rfl, h.symm⟩

/-! ## A concrete embedding capability used by witnesses: every text maps
to the one-dimensional unit vector `[1.0]`, which is its own normalization. -/

/-- A concrete embedder: every text embeds to the unit vector `[1.0]`. -/
def embed1 : Str → List NFloat := fun _ => [some 1]

/-- The number of chunks a build actually indexes: the start offsets run
below `min n 1000`, and the last batch may overrun, so the indexed region
is the first `⌈min n 1000 / b⌉ * b` chunks (clipped to `n` by `take`). -/
def capLen (n b : Nat) : Nat := ((min n 1000 + b - 1) / b) * b

theorem le_ceil_mul {b : Nat} (hb : 0 < b) (n : Nat) (hn : 0 < n) :
    n ≤ ((n + b - 1) / b) * b := by
  have hid : (n + b - 1) / b = (n - 1) / b + 1 := by
    have : n + b - 1 = (n - 1) + b := by omega
    rw [this, Nat.add_div_right _ hb]
  rw [hid, Nat.add_mul, one_mul]
  have hdm := Nat.div_add_mod (n - 1) b
  have hr : (n - 1) % b < b := Nat.mod_lt _ hb
  have hmc : b * ((n - 1) / b) = ((n - 1) / b) * b := Nat.mul_comm _ _
  rw [hmc] at hdm
  omega

theorem capLen_of_le {n b : Nat} (hb : 0 < b) (hn : 0 < n) (h1000 : n ≤ 1000) :
    n ≤ capLen n b := by
  rw [capLen, min_eq_left h1000]
  exact le_ceil_mul hb n hn

theorem sameWidths_const (l : List Str) (f : Str → List NFloat) (v : List NFloat)
    (hf : ∀ c, f c = v) : sameWidths (embed_texts f l) = true := by
  cases l with
  | nil => rfl
  | cons c cs =>
    simp only [embed_texts, List.map_cons, sameWidths, List.all_eq_true]
    intro x hx
    obtain ⟨y, _, rfl⟩ := List.mem_map.mp hx
    rw [hf y, hf c]
    simp

theorem buildStep_unit_some (text_chunks : List Str) (b i : Nat)
    (vs : List (List NFloat)) (acc : List Str) :
    buildStep embed1 text_chunks b i (some ⟨1, vs⟩) acc =
      .ok (⟨1, vs ++ ((text_chunks.drop i).take b).map (fun _ => [some 1])⟩,
           acc ++ (text_chunks.drop i).take b) := by
  rw [buildStep]
  set batch := (text_chunks.drop i).take b with hbatch
  have hw : sameWidths (embed_texts embed1 batch) = true :=
    sameWidths_const batch embed1 [some 1] (fun _ => rfl)
  rw [toMatrix, if_pos hw]
  simp only
  have hnorm : normalize_embeddings (embed_texts embed1 batch) =
      batch.map (fun _ => [some 1]) := by
    rw [normalize_embed_texts]
    exact List.map_congr_left (fun c _ => by rw [embed1]; exact normRow_unit)
  rw [hnorm, faissAdd]
  have hall : (batch.map (fun _ => ([some 1] : List NFloat))).all
      (fun v => v.length = (1 : Nat)) = true := by
    simp
  rw [if_pos hall]

theorem buildLoop_unit_some (text_chunks : List Str) (b : Nat) :
    ∀ (starts : List Nat) (vs : List (List NFloat)) (acc : List Str),
    buildLoop embed1 text_chunks b starts (some ⟨1, vs⟩) acc =
      .ok (⟨1, vs ++ (starts.flatMap (fun i => (text_chunks.drop i).take b)).map
              (fun _ => [some 1])⟩,
           acc ++ starts.flatMap (fun i => (text_chunks.drop i).take b)) := by
  intro starts
  induction starts with
  | nil => intro vs acc; simp [buildLoop]
  | cons i rest ih =>
    intro vs acc
    rw [buildLoop, buildStep_unit_some]
    simp only
    rw [ih]
    simp [List.flatMap_cons, List.map_append, List.append_assoc]

theorem buildLoop_unit_none (text_chunks : List Str) (b i : Nat)
    (rest : List Nat) (hne : (text_chunks.drop i).take b ≠ []) :
    buildLoop embed1 text_chunks b (i :: rest) none [] =
      .ok (⟨1, (((i :: rest).flatMap (fun j => (text_chunks.drop j).take b))).map
              (fun _ => [some 1])⟩,
           (i :: rest).flatMap (fun j => (text_chunks.drop j).take b)) := by
  rw [buildLoop, buildStep]
  set batch := (text_chunks.drop i).take b with hbatch
  have hw : sameWidths (embed_texts embed1 batch) = true :=
    sameWidths_const batch embed1 [some 1] (fun _ => rfl)
  rw [toMatrix, if_pos hw]
  simp only
  have hnorm : normalize_embeddings (embed_texts embed1 batch) =
      batch.map (fun _ => [some 1]) := by
    rw [normalize_embed_texts]
    exact List.map_congr_left (fun c _ => by rw [embed1]; exact normRow_unit)
  rw [hnorm]
  obtain ⟨c, cs, hcons⟩ := List.exists_cons_of_ne_nil hne
  rw [hcons]
  simp only [List.map_cons, List.head?_cons]
  have hfa : faissAdd ⟨([some (1 : ℝ)] : List NFloat).length, []⟩
      ([some 1] :: cs.map (fun _ => [some 1])) =
      .ok ⟨1, [some 1] :: cs.map (fun _ => [some 1])⟩ := by
    simp [faissAdd]
  rw [hfa]
  simp only
  rw [show ([some (1 : ℝ)] : List NFloat) :: cs.map (fun _ => [some 1]) =
      (c :: cs).map (fun _ => [some 1]) from by simp, ← hcons,
    buildLoop_unit_some]
  rw [List.flatMap_cons, ← hbatch]
  simp [hcons]

theorem batchStarts_cons {c b : Nat} (hb : 0 < b) (hc : 0 < c) :
    ∃ rest, batchStarts c b = 0 :: rest := by
  rw [batchStarts]
  have hm : 0 < (c + b - 1) / b := by
    apply Nat.div_pos ?_ hb
    omega
  obtain ⟨k, hk⟩ : ∃ k, (c + b - 1) / b = k + 1 :=
    ⟨_, (Nat.succ_pred_eq_of_pos hm).symm⟩
  rw [hk, List.range_succ_eq_map]
  refine ⟨((List.range k).map Nat.succ).map (fun j => j * b), ?_⟩
  simp

theorem build_index_unit (store : Store) (text_chunks : List Str)
    (s : SessionId) (force : Bool) (b : Nat) (hb : 0 < b)
    (hne : text_chunks ≠ []) (hfresh : store s = none ∨ force = true) :
    build_index embed1 store text_chunks s force b =
      .ok (storeUpdate store s
        (⟨1, (text_chunks.take (capLen text_chunks.length b)).map
            (fun _ => [some 1])⟩,
         text_chunks.take (capLen text_chunks.length b))) := by
  rw [build_index]
  have hcond : ((store s).isSome && !force) = false := by
    rcases hfresh with h | h
    · simp [h]
    · simp [h]
  rw [hcond, if_neg (by simp), if_neg (Nat.pos_iff_ne_zero.mp hb)]
  have hc : 0 < min text_chunks.length 1000 := by
    have : 0 < text_chunks.length := List.length_pos.mpr hne
    omega
  obtain ⟨rest, hstarts⟩ := batchStarts_cons hb hc
  have hfirst : (text_chunks.drop 0).take b ≠ [] := by
    rw [List.drop_zero]
    intro hnil
    rcases List.take_eq_nil_iff.mp hnil with h | h
    · omega
    · exact hne h
  rw [hstarts, buildLoop_unit_none text_chunks b 0 rest hfirst]
  simp only
  rw [← hstarts, batchStarts_flatMap, ← capLen]

/-! ## Claim C1 -/

/-- Claim C1: every successful `build_index` call that actually runs the
build (fresh session, or `force_rebuild` set) persists an aligned pair —
the metadata length equals the vector count and row `i` of the index is
the normalized embedding of metadata entry `i` — and every single batch
step of the build preserves this alignment of the in-memory state. -/
theorem c1_build_alignment (embed : Str → List NFloat) (store : Store)
    (text_chunks : List Str) (s : SessionId) (force : Bool) (b : Nat)
    (st' : Store)
    (hfresh : store s = none ∨ force = true)
    (hok : build_index embed store text_chunks s force b = .ok st') :
    (∃ index meta, st' s = some (index, meta) ∧ Aligned embed index meta ∧
      index.vecs.length = meta.length) ∧
    (∀ i oindex acc index1 acc1, OptAligned embed oindex acc →
      buildStep embed text_chunks b i oindex acc = .ok (index1, acc1) →
      Aligned embed index1 acc1) := by
  constructor
  · rcases build_index_ok_elim hok with ⟨hsome, hforce, _⟩ |
      ⟨_, index, acc, hloop, hst⟩
    · rcases hfresh with h | h
      · rw [h] at hsome; simp at hsome
      · rw [h] at hforce; exact absurd hforce (by simp)
    · have hal : Aligned embed index acc :=
        buildLoop_aligned (by simp [OptAligned]) hloop
      refine ⟨index, acc, ?_, hal, aligned_length hal⟩
      rw [hst, storeUpdate]
      simp
  · intro i oindex acc index1 acc1 hinv hstep
    exact buildStep_aligned hinv hstep

theorem c1_build_alignment_witness :
    ((emptyStore "s" = none ∨ false = true) ∧
      build_index embed1 emptyStore [['a'], ['b']] "s" false 25 =
        .ok (storeUpdate emptyStore "s"
          (⟨1, [[some 1], [some 1]]⟩, [['a'], ['b']]))) ∧
    ((∃ index meta,
        storeUpdate emptyStore "s"
          (⟨1, [[some 1], [some 1]]⟩, [['a'], ['b']]) "s" = some (index, meta) ∧
        Aligned embed1 index meta ∧ index.vecs.length = meta.length) ∧
      (∀ i oindex acc index1 acc1, OptAligned embed1 oindex acc →
        buildStep embed1 [['a'], ['b']] 25 i oindex acc = .ok (index1, acc1) →
        Aligned embed1 index1 acc1)) := by
  have hok : build_index embed1 emptyStore [['a'], ['b']] "s" false 25 =
      .ok (storeUpdate emptyStore "s"
        (⟨1, [[some 1], [some 1]]⟩, [['a'], ['b']])) := by
    rw [build_index_unit emptyStore [['a'], ['b']] "s" false 25 (by norm_num)
      (by simp) (Or.inl rfl)]
    norm_num [capLen]
  exact ⟨⟨Or.inl rfl, hok⟩,
    c1_build_alignment embed1 emptyStore [['a'], ['b']] "s" false 25 _
      (Or.inl rfl) hok⟩

/-! ## Claims C5 and C7: what a build that actually runs produces -/

theorem build_run_characterization (embed : Str → List NFloat) (store : Store)
    (text_chunks : List Str) (s : SessionId) (force : Bool) (b : Nat)
    (st' : Store)
    (hfresh : store s = none ∨ force = true)
    (hok : build_index embed store text_chunks s force b = .ok st') :
    ∃ index,
      st' s = some (index, text_chunks.take (capLen text_chunks.length b)) ∧
      index.vecs.length =
        (text_chunks.take (capLen text_chunks.length b)).length ∧
      (text_chunks.length ≤ 1000 →
        st' s = some (index, text_chunks) ∧
        index.vecs.length = text_chunks.length) := by
  rcases build_index_ok_elim hok with ⟨hsome, hforce, _⟩ |
    ⟨hb', index, acc, hloop, hst⟩
  · rcases hfresh with h | h
    · rw [h] at hsome; simp at hsome
    · rw [h] at hforce; exact absurd hforce (by simp)
  · have hne : text_chunks ≠ [] := by
      intro hnil
      subst hnil
      have hstarts : batchStarts (min ([] : List Str).length 1000) b = [] := by
        simp only [List.length_nil, Nat.min_eq_left (by norm_num : 0 ≤ 1000)]
        rw [batchStarts]
        have : (0 + b - 1) / b = 0 := Nat.div_eq_of_lt (by omega)
        rw [this]
        simp
      rw [hstarts] at hloop
      exact absurd hloop (by simp [buildLoop])
    have hacc : acc = text_chunks.take (capLen text_chunks.length b) := by
      have h1 := buildLoop_acc hloop
      rw [batchStarts_flatMap] at h1
      rw [h1, List.nil_append, capLen]
    have hal : Aligned embed index acc :=
      buildLoop_aligned (by simp [OptAligned]) hloop
    have hlen := aligned_length hal
    refine ⟨index, ?_, ?_, ?_⟩
    · rw [hst, storeUpdate, hacc]
      simp
    · rw [hlen, hacc]
    · intro h1000
      have hfull : text_chunks.take (capLen text_chunks.length b) =
          text_chunks :=
        List.take_of_length_le
          (capLen_of_le (Nat.pos_of_ne_zero hb')
            (List.length_pos.mpr hne) h1000)
      constructor
      · rw [hst, storeUpdate, hacc, hfull]
        simp
      · rw [hlen, hacc, hfull]

/-- Claim C5 (amended): a build that actually runs partitions the chunk
list into consecutive batches of `batch_size` starting below
`min(len(chunks), 1000)` (the source's hard cap; the last batch may
overrun it), so the persisted metadata is the prefix
`chunks[:capLen(len(chunks), batch_size)]` in supplied order and the index
holds exactly that many vectors; whenever at most 1000 chunks are
supplied, that is exactly all of them.  (The unamended claim — every
supplied chunk is indexed — fails for more than 1000 chunks, and an empty
input never builds successfully.) -/
theorem c5_batching (embed : Str → List NFloat) (store : Store)
    (text_chunks : List Str) (s : SessionId) (force : Bool) (b : Nat)
    (st' : Store)
    (hfresh : store s = none ∨ force = true)
    (hok : build_index embed store text_chunks s force b = .ok st') :
    ∃ index,
      st' s = some (index, text_chunks.take (capLen text_chunks.length b)) ∧
      index.vecs.length =
        (text_chunks.take (capLen text_chunks.length b)).length ∧
      (text_chunks.length ≤ 1000 →
        st' s = some (index, text_chunks) ∧
        index.vecs.length = text_chunks.length) :=
  build_run_characterization embed store text_chunks s force b st' hfresh hok

theorem c5_batching_witness :
    ((emptyStore "s" = none ∨ false = true) ∧
      build_index embed1 emptyStore [['a']] "s" false 25 =
        .ok (storeUpdate emptyStore "s" (⟨1, [[some 1]]⟩, [['a']]))) ∧
    (∃ index,
      storeUpdate emptyStore "s" (⟨1, [[some 1]]⟩, [['a']]) "s" =
        some (index, ([['a']] : List Str).take (capLen ([['a']] : List Str).length 25)) ∧
      index.vecs.length =
        (([['a']] : List Str).take (capLen ([['a']] : List Str).length 25)).length ∧
      (([['a']] : List Str).length ≤ 1000 →
        storeUpdate emptyStore "s" (⟨1, [[some 1]]⟩, [['a']]) "s" =
          some (index, [['a']]) ∧
        index.vecs.length = ([['a']] : List Str).length)) := by
  have hok : build_index embed1 emptyStore [['a']] "s" false 25 =
      .ok (storeUpdate emptyStore "s" (⟨1, [[some 1]]⟩, [['a']])) := by
    rw [build_index_unit emptyStore [['a']] "s" false 25 (by norm_num)
      (by simp) (Or.inl rfl)]
    norm_num [capLen]
  exact ⟨⟨Or.inl rfl, hok⟩,
    c5_batching embed1 emptyStore [['a']] "s" false 25 _ (Or.inl rfl) hok⟩

theorem c5_counterexample :
    (List.replicate 1001 (['a'] : Str)).length = 1001 ∧
    build_index embed1 emptyStore (List.replicate 1001 ['a']) "s" false 25 =
      .ok (storeUpdate emptyStore "s"
        (⟨1, List.replicate 1000 [some 1]⟩, List.replicate 1000 ['a'])) ∧
    (List.replicate 1000 (['a'] : Str)).length ≠ 1001 := by
  refine ⟨List.length_replicate 1001 ['a'], ?_,
    by rw [List.length_replicate]; norm_num⟩
  rw [build_index_unit emptyStore (List.replicate 1001 ['a']) "s" false 25
    (by norm_num)
    (List.ne_nil_of_length_pos (by rw [List.length_replicate]; norm_num))
    (Or.inl rfl)]
  have hcap : capLen (List.replicate 1001 (['a'] : Str)).length 25 = 1000 := by
    rw [List.length_replicate]
    rfl
  rw [hcap, List.take_replicate]
  have hmin : min 1000 1001 = 1000 := by norm_num
  rw [hmin, List.map_replicate]

/-- Claim C7 (amended): a successful forced rebuild on a session that
already holds persisted artifacts replaces them entirely — the new pair is
built from the new chunks alone (metadata is the prefix
`chunks[:capLen(M, batch_size)]` of the new chunks, never any old entry),
and for at most 1000 new chunks the index holds exactly M vectors, never
N + M.  (The unamended claim — exactly M vectors for every M — fails for
M over the source's hard cap of 1000.) -/
theorem c7_rebuild_replaces (embed : Str → List NFloat) (store : Store)
    (text_chunks : List Str) (s : SessionId) (b : Nat) (st' : Store)
    (oldIndex : FaissIndex) (oldMeta : List Str)
    (_hold : store s = some (oldIndex, oldMeta))
    (hok : build_index embed store text_chunks s true b = .ok st') :
    ∃ index,
      st' s = some (index, text_chunks.take (capLen text_chunks.length b)) ∧
      index.vecs.length =
        (text_chunks.take (capLen text_chunks.length b)).length ∧
      (text_chunks.length ≤ 1000 →
        st' s = some (index, text_chunks) ∧
        index.vecs.length = text_chunks.length) :=
  build_run_characterization embed store text_chunks s true b st'
    (Or.inr rfl) hok

/-- The prior store used by the C7 witness and counterexample: session
`s` already holds one indexed chunk. -/
def priorStore : Store := storeUpdate emptyStore "s" (⟨1, [[some 1]]⟩, [['b']])

theorem c7_rebuild_replaces_witness :
    (priorStore "s" = some (⟨1, [[some 1]]⟩, [['b']]) ∧
      build_index embed1 priorStore [['c'], ['d']] "s" true 25 =
        .ok (storeUpdate priorStore "s"
          (⟨1, [[some 1], [some 1]]⟩, [['c'], ['d']]))) ∧
    (∃ index,
      storeUpdate priorStore "s" (⟨1, [[some 1], [some 1]]⟩, [['c'], ['d']]) "s" =
        some (index,
          ([['c'], ['d']] : List Str).take
            (capLen ([['c'], ['d']] : List Str).length 25)) ∧
      index.vecs.length =
        (([['c'], ['d']] : List Str).take
          (capLen ([['c'], ['d']] : List Str).length 25)).length ∧
      (([['c'], ['d']] : List Str).length ≤ 1000 →
        storeUpdate priorStore "s" (⟨1, [[some 1], [some 1]]⟩, [['c'], ['d']]) "s" =
          some (index, [['c'], ['d']]) ∧
        index.vecs.length = ([['c'], ['d']] : List Str).length)) := by
  have hold : priorStore "s" = some (⟨1, [[some 1]]⟩, [['b']]) := by
    rw [priorStore, storeUpdate]
    simp
  have hok : build_index embed1 priorStore [['c'], ['d']] "s" true 25 =
      .ok (storeUpdate priorStore "s"
        (⟨1, [[some 1], [some 1]]⟩, [['c'], ['d']])) := by
    rw [build_index_unit priorStore [['c'], ['d']] "s" true 25 (by norm_num)
      (by simp) (Or.inr rfl)]
    norm_num [capLen]
  exact ⟨⟨hold, hok⟩,
    c7_rebuild_replaces embed1 priorStore [['c'], ['d']] "s" 25 _
      ⟨1, [[some 1]]⟩ [['b']] hold hok⟩

theorem c7_counterexample :
    priorStore "s" = some (⟨1, [[some 1]]⟩, [['b']]) ∧
    (List.replicate 1001 (['c'] : Str)).length = 1001 ∧
    build_index embed1 priorStore (List.replicate 1001 ['c']) "s" true 50 =
      .ok (storeUpdate priorStore "s"
        (⟨1, List.replicate 1000 [some 1]⟩, List.replicate 1000 ['c'])) ∧
    (List.replicate 1000 [some (1 : ℝ)]).length ≠ 1001 := by
  refine ⟨by rw [priorStore, storeUpdate]; simp,
    List.length_replicate 1001 ['c'], ?_,
    by rw [List.length_replicate]; norm_num⟩
  rw [build_index_unit priorStore (List.replicate 1001 ['c']) "s" true 50
    (by norm_num)
    (List.ne_nil_of_length_pos (by rw [List.length_replicate]; norm_num))
    (Or.inr rfl)]
  have hcap : capLen (List.replicate 1001 (['c'] : Str)).length 50 = 1000 := by
    rw [List.length_replicate]
    rfl
  rw [hcap, List.take_replicate]
  have hmin : min 1000 1001 = 1000 := by norm_num
  rw [hmin, List.map_replicate]

/-! ## Claim C6 -/

/-- Claim C6: when both persisted artifacts already exist for the session,
`build_index` with `force_rebuild = false` is a no-op — it returns with the
store unchanged (so the artifacts are byte-for-byte those of the earlier
build), whatever chunks are passed; consequently any second build with
`force_rebuild = false` after a successful build leaves the store exactly
as the first build left it. -/
theorem c6_noop_build (embed : Str → List NFloat) (store : Store)
    (text_chunks : List Str) (s : SessionId) (b : Nat)
    (p : FaissIndex × List Str) (h : store s = some p) :
    build_index embed store text_chunks s false b = .ok store ∧
    (∀ embed2 text2 force2 b2 st1,
      build_index embed2 store text2 s force2 b2 = .ok st1 →
      ∀ embed3 text3 b3,
        build_index embed3 st1 text3 s false b3 = .ok st1) := by
  constructor
  · rw [build_index]
    have : ((store s).isSome && !false) = true := by
      rw [h]
      simp
    rw [this]
    simp
  · intro embed2 text2 force2 b2 st1 hok1 embed3 text3 b3
    have hsome : (st1 s).isSome := by
      rcases build_index_ok_elim hok1 with ⟨hs1, _, hst⟩ | ⟨_, index, acc, _, hst⟩
      · rw [hst]; exact hs1
      · rw [hst, storeUpdate]; simp
    rw [build_index]
    have : ((st1 s).isSome && !false) = true := by
      rw [hsome]
      simp
    rw [this]
    simp

theorem c6_noop_build_witness :
    priorStore "s" = some (⟨1, [[some 1]]⟩, [['b']]) ∧
    build_index embed1 priorStore [['z']] "s" false 7 = .ok priorStore := by
  have h : priorStore "s" = some (⟨1, [[some 1]]⟩, [['b']]) := by
    rw [priorStore, storeUpdate]
    simp
  exact ⟨h, (c6_noop_build embed1 priorStore [['z']] "s" 7
    (⟨1, [[some 1]]⟩, [['b']]) h).1⟩

/-! ## Claims C2 and C9: normalization -/

/-- Claim C2 (amended): `normalize_embeddings` raises no error on a
zero-norm row — it divides the row by zero, so every element of that row
of the output is non-finite (NaN/Inf), and the row is passed through
silently as part of the returned matrix. -/
theorem c2_zero_row_nonfinite (vectors : List (List NFloat))
    (row : List NFloat) (hmem : row ∈ vectors)
    (hz : nfNorm row = some 0) :
    normRow row = List.replicate row.length none ∧
    List.replicate row.length none ∈ normalize_embeddings vectors := by
  have h1 := normRow_of_zero_norm row hz
  refine ⟨h1, ?_⟩
  rw [normalize_embeddings, ← h1]
  exact List.mem_map_of_mem normRow hmem

theorem c2_zero_row_nonfinite_witness :
    (([some 0, some 0] : List NFloat) ∈
        ([[some 0, some 0]] : List (List NFloat)) ∧
      nfNorm [some 0, some 0] = some 0) ∧
    (normRow [some 0, some 0] =
        List.replicate ([some (0 : ℝ), some 0] : List NFloat).length none ∧
      List.replicate ([some (0 : ℝ), some 0] : List NFloat).length none ∈
        normalize_embeddings [[some 0, some 0]]) := by
  have hz : nfNorm ([some 0, some 0] : List NFloat) = some 0 := by
    rw [nfNorm, nfSumSq, nfSum]
    norm_num [nfMul, nfAdd, nfSqrt, Real.sqrt_zero]
  exact ⟨⟨by simp, hz⟩,
    c2_zero_row_nonfinite [[some 0, some 0]] [some 0, some 0] (by simp) hz⟩

/-- Claim C2 counterexample: the claim says a zero-norm row raises a
ZeroVector error at normalization time and a NaN/Inf row is never passed
into the index.  In fact `normalize_embeddings` returns normally on the
zero matrix, producing the all-NaN row, and a build whose embedder yields
a zero vector completes successfully with that NaN row stored in the
persisted index. -/
theorem c2_counterexample :
    normalize_embeddings [[some 0, some 0]] = [[none, none]] ∧
    build_index (fun _ => [some 0]) emptyStore [['a']] "s" true 25 =
      .ok (storeUpdate emptyStore "s" (⟨1, [[none]]⟩, [['a']])) := by
  have hz : nfNorm ([some 0, some 0] : List NFloat) = some 0 := by
    rw [nfNorm, nfSumSq, nfSum]
    norm_num [nfMul, nfAdd, nfSqrt, Real.sqrt_zero]
  have hz1 : nfNorm ([some 0] : List NFloat) = some 0 := by
    rw [nfNorm, nfSumSq, nfSum]
    norm_num [nfMul, nfAdd, nfSqrt, Real.sqrt_zero]
  constructor
  · rw [normalize_embeddings]
    simp only [List.map_cons, List.map_nil]
    rw [normRow_of_zero_norm _ hz]
    rfl
  · rw [build_index]
    rw [show ((emptyStore "s").isSome && !true) = false from rfl]
    rw [if_neg (by simp), if_neg (by norm_num)]
    have hstarts : batchStarts (min ([['a']] : List Str).length 1000) 25 =
        [0] := by
      rfl
    rw [hstarts, buildLoop, buildStep]
    have hw : sameWidths (embed_texts (fun _ => [some 0]) [['a']]) = true :=
      sameWidths_const [['a']] (fun _ => [some 0]) [some 0] (fun _ => rfl)
    rw [toMatrix]
    simp only [List.drop_zero]
    rw [show (List.take 25 ([['a']] : List Str)) = [['a']] from rfl]
    rw [if_pos (by exact hw)]
    simp only
    have hnorm : normalize_embeddings
        (embed_texts (fun _ => [some (0 : ℝ)]) [['a']]) = [[none]] := by
      rw [normalize_embed_texts]
      simp only [List.map_cons, List.map_nil]
      rw [normRow_of_zero_norm _ hz1]
      rfl
    rw [hnorm]
    simp only [List.head?_cons]
    have hfa : faissAdd ⟨([none] : List NFloat).length, []⟩ [[none]] =
        .ok ⟨1, [[none]]⟩ := by
      simp [faissAdd]
    rw [hfa]
    simp only
    rw [buildLoop]
    rfl

/-- Claim C9: on a matrix of finite rows each with non-zero Euclidean norm,
`normalize_embeddings` returns the same-shape matrix whose rows are the
input rows divided elementwise by their own norm, and every output row has
Euclidean norm exactly 1 (the ideal-real model of float32 arithmetic turns
the tolerance in the claim into exactness). -/
theorem c9_normalization (vectors : List (List ℝ))
    (h : ∀ row ∈ vectors, sumSq row ≠ 0) :
    normalize_embeddings (vectors.map (fun r => r.map some)) =
      vectors.map (fun r => r.map (fun x => some (x / Real.sqrt (sumSq r)))) ∧
    ∀ nrow ∈ normalize_embeddings (vectors.map (fun r => r.map some)),
      nfNorm nrow = some 1 := by
  have heq : normalize_embeddings (vectors.map (fun r => r.map some)) =
      vectors.map (fun r => r.map (fun x => some (x / Real.sqrt (sumSq r)))) := by
    rw [normalize_embeddings, List.map_map]
    refine List.map_congr_left ?_
    intro r hr
    simp only [Function.comp_apply]
    exact normRow_map_some r (h r hr)
  refine ⟨heq, ?_⟩
  intro nrow hmem
  rw [heq] at hmem
  obtain ⟨r, hr, rfl⟩ := List.mem_map.mp hmem
  rw [← normRow_map_some r (h r hr)]
  exact nfNorm_normRow r (h r hr)

theorem c9_normalization_witness :
    (∀ row ∈ ([[3, 4]] : List (List ℝ)), sumSq row ≠ 0) ∧
    (normalize_embeddings
        (([[3, 4]] : List (List ℝ)).map (fun r => r.map some)) =
      ([[3, 4]] : List (List ℝ)).map
        (fun r => r.map (fun x => some (x / Real.sqrt (sumSq r)))) ∧
    ∀ nrow ∈ normalize_embeddings
        (([[3, 4]] : List (List ℝ)).map (fun r => r.map some)),
      nfNorm nrow = some 1) := by
  have h : ∀ row ∈ ([[3, 4]] : List (List ℝ)), sumSq row ≠ 0 := by
    intro row hrow
    simp only [List.mem_singleton] at hrow
    subst hrow
    norm_num [sumSq]
  exact ⟨h, c9_normalization [[3, 4]] h⟩

/-! ## Search-side lemmas -/

theorem nfLeB_eq_true_iff (a b : NFloat) : nfLeB a b = true ↔ nfLe a b := by
  cases a <;> cases b <;> simp [nfLeB, nfLe]

theorem nfLeB_total (a b : NFloat) : (nfLeB a b || nfLeB b a) = true := by
  cases a <;> cases b <;> simp [nfLeB]
  exact le_total _ _

theorem nfLeB_trans {a b c : NFloat} (h1 : nfLeB a b = true)
    (h2 : nfLeB b c = true) : nfLeB a c = true := by
  cases a <;> cases b <;> cases c <;> simp_all [nfLeB]
  exact le_trans h1 h2

theorem topIndices_length (index : FaissIndex) (q : List NFloat) (k : Nat) :
    (topIndices index q k).length = min k index.vecs.length := by
  rw [topIndices, List.length_take]
  congr 1
  rw [(List.mergeSort_perm (List.range index.vecs.length) _).length_eq,
    List.length_range]

theorem topIndices_mem {index : FaissIndex} {q : List NFloat} {k i : Nat}
    (h : i ∈ topIndices index q k) : i < index.vecs.length := by
  rw [topIndices] at h
  have h2 := (List.take_sublist k _).mem h
  have h3 := (List.mergeSort_perm (List.range index.vecs.length)
    (fun i j => nfLeB (simScore index q j) (simScore index q i))).mem_iff.mp h2
  exact List.mem_range.mp h3

theorem topIndices_sorted (index : FaissIndex) (q : List NFloat) (k : Nat) :
    (topIndices index q k).Pairwise
      (fun i j => nfLe (simScore index q j) (simScore index q i)) := by
  have hs := @List.sorted_mergeSort Nat
    (fun i j => nfLeB (simScore index q j) (simScore index q i))
    (fun a b c h1 h2 => nfLeB_trans h2 h1)
    (fun a b => nfLeB_total (simScore index q b) (simScore index q a))
    (List.range index.vecs.length)
  have hp := List.Pairwise.sublist (List.take_sublist k _) hs
  rw [topIndices]
  exact hp.imp (fun h => (nfLeB_eq_true_iff _ _).mp h)

theorem topIndices_dominates {index : FaissIndex} {q : List NFloat} {k : Nat}
    {i j : Nat} (hi : i ∈ topIndices index q k)
    (hj : j < index.vecs.length) (hjn : j ∉ topIndices index q k) :
    nfLe (simScore index q j) (simScore index q i) := by
  have hs := @List.sorted_mergeSort Nat
    (fun i j => nfLeB (simScore index q j) (simScore index q i))
    (fun a b c h1 h2 => nfLeB_trans h2 h1)
    (fun a b => nfLeB_total (simScore index q b) (simScore index q a))
    (List.range index.vecs.length)
  set order := (List.range index.vecs.length).mergeSort
    (fun i j => nfLeB (simScore index q j) (simScore index q i)) with horder
  have hsplit : order = order.take k ++ order.drop k :=
    (List.take_append_drop k order).symm
  rw [hsplit] at hs
  have hjorder : j ∈ order := by
    refine (List.mergeSort_perm (List.range index.vecs.length) _).mem_iff.mpr ?_
    exact List.mem_range.mpr hj
  have hjdrop : j ∈ order.drop k := by
    rw [hsplit] at hjorder
    rcases List.mem_append.mp hjorder with h | h
    · exact absurd h (by rw [topIndices] at hjn; exact hjn)
    · exact h
  have hitake : i ∈ order.take k := by
    rw [topIndices] at hi
    exact hi
  have := (List.pairwise_append.mp hs).2.2 i hitake j hjdrop
  exact (nfLeB_eq_true_iff _ _).mp this

theorem pyGet_ofNat {chunks : List Str} {i : Nat} (h : i < chunks.length) :
    pyGet chunks (i : Int) = .ok (chunks.getD i []) := by
  have h0 : 0 ≤ (i : Int) := by omega
  have ht : ((i : Int)).toNat = i := by omega
  rw [pyGet, if_pos h0, ht, if_pos h]

theorem mapM_pyGet_ok (chunks : List Str) :
    ∀ σ : List Nat, (∀ i ∈ σ, i < chunks.length) →
    ((σ.map (fun i : Nat => (i : Int))).mapM (fun i =>
      match pyGet chunks i with
      | .error e => Except.error e
      | .ok c => Except.ok (c.take 500)) : Except String (List Str)) =
      .ok (σ.map (fun i => (chunks.getD i []).take 500)) := by
  intro σ
  induction σ with
  | nil => intro _; rfl
  | cons i rest ih =>
    intro h
    have hi : i < chunks.length := h i (by simp)
    rw [List.map_cons, List.mapM_cons, pyGet_ofNat hi]
    rw [ih (fun j hj => h j (by simp [hj]))]
    rfl

theorem retrieve_chunks_eq (embed : Str → List NFloat) (store : Store)
    (query : Str) (s : SessionId) (k : Nat) (index : FaissIndex)
    (chunks : List Str)
    (hstore : store s = some (index, chunks))
    (halign : index.vecs.length = chunks.length)
    (hn : 0 < chunks.length) (hk : 0 < k)
    (hq : (normRow (embed (query.take 200))).length = index.dim) :
    retrieve_chunks embed store query s k =
      (topIndices index (normRow (embed (query.take 200)))
        (min k chunks.length)).map (fun i => (chunks.getD i []).take 500) := by
  have hload : load_index store s = .ok (index, chunks) := by
    rw [load_index, hstore]
  have hqv : normalize_embeddings (embed_texts embed [query.take 200]) =
      [normRow (embed (query.take 200))] := by
    rw [normalize_embed_texts]
    rfl
  have hpad : min k chunks.length - index.vecs.length = 0 := by
    rw [halign]
    exact Nat.sub_eq_zero_of_le (min_le_right _ _)
  have hsearch : faissSearch index (normRow (embed (query.take 200)))
      (min k chunks.length) =
      .ok ((topIndices index (normRow (embed (query.take 200)))
        (min k chunks.length)).map (fun i : Nat => (i : Int))) := by
    rw [faissSearch, if_neg (fun hne => hne hq),
      if_neg (Nat.pos_iff_ne_zero.mp (lt_min hk hn)), hpad]
    rw [List.replicate_zero, List.append_nil]
  have hmem : ∀ i ∈ topIndices index (normRow (embed (query.take 200)))
      (min k chunks.length), i < chunks.length := by
    intro i hi
    rw [← halign]
    exact topIndices_mem hi
  have hcore : retrieve_chunks_core embed store query s k =
      .ok ((topIndices index (normRow (embed (query.take 200)))
        (min k chunks.length)).map (fun i => (chunks.getD i []).take 500)) := by
    rw [retrieve_chunks_core, hload]
    simp only
    rw [hqv]
    simp only [List.getD_cons_zero]
    rw [hsearch]
    simp only
    exact mapM_pyGet_ok chunks _ hmem
  rw [retrieve_chunks, hcore]

theorem except_bind_ok {ε α β : Type} {x : Except ε α} {g : α → Except ε β}
    {b : β} (h : (x >>= g) = .ok b) : ∃ a, x = .ok a ∧ g a = .ok b := by
  cases x with
  | error e => exact Except.noConfusion h
  | ok a => exact ⟨a, rfl, h⟩

theorem mapM_ok_mem {α β : Type} {f : α → Except String β} :
    ∀ {l : List α} {rs : List β}, l.mapM f = .ok rs →
    ∀ r ∈ rs, ∃ a ∈ l, f a = .ok r := by
  intro l
  induction l with
  | nil =>
    intro rs h r hr
    rw [List.mapM_nil] at h
    have : rs = [] := (Except.ok.inj h).symm
    subst this
    simp at hr
  | cons a l ih =>
    intro rs h r hr
    rw [List.mapM_cons] at h
    obtain ⟨b, hfa, h2⟩ := except_bind_ok h
    obtain ⟨bs, hbs, h3⟩ := except_bind_ok h2
    have : rs = b :: bs := (Except.ok.inj h3).symm
    subst this
    rcases List.mem_cons.mp hr with hrb | hrbs
    · subst hrb
      exact ⟨a, by simp, hfa⟩
    · obtain ⟨a1, ha1, hfa1⟩ := ih hbs r hrbs
      exact ⟨a1, by simp [ha1], hfa1⟩

theorem pyGet_mem {chunks : List Str} {i : Int} {c : Str}
    (h : pyGet chunks i = .ok c) : c ∈ chunks := by
  rw [pyGet] at h
  by_cases h0 : 0 ≤ i
  · rw [if_pos h0] at h
    by_cases h1 : i.toNat < chunks.length
    · rw [if_pos h1] at h
      have hc := Except.ok.inj h
      rw [← hc, List.getD_eq_getElem _ _ h1]
      exact List.getElem_mem h1
    · rw [if_neg h1] at h
      exact Except.noConfusion h
  · rw [if_neg h0] at h
    by_cases h1 : (-i).toNat ≤ chunks.length
    · rw [if_pos h1] at h
      have hc := Except.ok.inj h
      have hlt : chunks.length - (-i).toNat < chunks.length := by omega
      rw [← hc, List.getD_eq_getElem _ _ hlt]
      exact List.getElem_mem hlt
    · rw [if_neg h1] at h
      exact Except.noConfusion h

/-! ## Claim C10 -/

/-- Claim C10: only the first 200 characters of the query are embedded and
searched — retrieval on `query` coincides with retrieval on `query[:200]`
— and every returned string is a metadata entry of the session truncated
to its first 500 characters, hence of length at most 500. -/
theorem c10_truncation (embed : Str → List NFloat) (store : Store)
    (query : Str) (s : SessionId) (k : Nat) :
    retrieve_chunks embed store query s k =
      retrieve_chunks embed store (query.take 200) s k ∧
    ∀ r ∈ retrieve_chunks embed store query s k,
      r.length ≤ 500 ∧
      ∃ index chunks c, store s = some (index, chunks) ∧ c ∈ chunks ∧
        r = c.take 500 := by
  constructor
  · have htt : (query.take 200).take 200 = query.take 200 := by
      rw [List.take_take, Nat.min_self]
    simp only [retrieve_chunks, retrieve_chunks_core, htt]
  · intro r hr
    rcases hload : load_index store s with e | p
    · have hnil : retrieve_chunks embed store query s k = [] := by
        rw [retrieve_chunks, retrieve_chunks_core, hload]
      rw [hnil] at hr
      simp at hr
    · obtain ⟨index, chunks⟩ := p
      rcases hsearch : faissSearch index
          ((normalize_embeddings (embed_texts embed [query.take 200])).getD 0 [])
          (min k chunks.length) with e | is
      · have hnil : retrieve_chunks embed store query s k = [] := by
          rw [retrieve_chunks, retrieve_chunks_core, hload]
          simp only
          rw [hsearch]
        rw [hnil] at hr
        simp at hr
      · rcases hmap : is.mapM (fun i =>
            match pyGet chunks i with
            | .error e => Except.error e
            | .ok c => Except.ok (c.take 500)) with e | rs
        · have hnil : retrieve_chunks embed store query s k = [] := by
            rw [retrieve_chunks, retrieve_chunks_core, hload]
            simp only
            rw [hsearch]
            simp only
            rw [hmap]
          rw [hnil] at hr
          simp at hr
        · have hres : retrieve_chunks embed store query s k = rs := by
            rw [retrieve_chunks, retrieve_chunks_core, hload]
            simp only
            rw [hsearch]
            simp only
            rw [hmap]
          rw [hres] at hr
          obtain ⟨i, _, hfi⟩ := mapM_ok_mem hmap r hr
          rcases hpg : pyGet chunks i with e | c
          · rw [hpg] at hfi
            exact absurd hfi (by simp)
          · rw [hpg] at hfi
            have hrc : r = c.take 500 := (Except.ok.inj hfi).symm
            have hcm : c ∈ chunks := pyGet_mem hpg
            have hstore : store s = some (index, chunks) := by
              rcases hss : store s with _ | q
              · rw [load_index, hss] at hload
                exact Except.noConfusion hload
              · rw [load_index, hss] at hload
                have h2 : (Except.ok q :
                    Except String (FaissIndex × List Str)) =
                    Except.ok (index, chunks) := hload
                rw [Except.ok.inj h2]
            refine ⟨?_, index, chunks, c, hstore, hcm, hrc⟩
            rw [hrc, List.length_take]
            omega

/-! ## A one-vector session store used by concrete retrieval evaluations -/

/-- A store whose session `s` holds one indexed unit vector `[1.0]` and a
single metadata entry. -/
def oneStore (meta : Str) : Store :=
  storeUpdate emptyStore "s" (⟨1, [[some 1]]⟩, [meta])

theorem oneStore_lookup (meta : Str) :
    oneStore meta "s" = some (⟨1, [[some 1]]⟩, [meta]) := by
  rw [oneStore, storeUpdate]
  simp

theorem topIndices_one (index : FaissIndex) (q : List NFloat)
    (h : index.vecs.length = 1) (k : Nat) (hk : 0 < k) :
    topIndices index q k = [0] := by
  rw [topIndices, h]
  rw [show List.range 1 = [0] from rfl, List.mergeSort_singleton]
  cases k with
  | zero => omega
  | succ n => rw [List.take_succ_cons, List.take_nil]

theorem retrieve_oneStore (meta : Str) (q : Str) (k : Nat) (hk : 0 < k) :
    retrieve_chunks embed1 (oneStore meta) q "s" k = [meta.take 500] := by
  have hq : (normRow (embed1 (q.take 200))).length = (1 : Nat) := by
    have he : embed1 (q.take 200) = [some 1] := rfl
    rw [he, normRow_unit]
    rfl
  have heq := retrieve_chunks_eq embed1 (oneStore meta) q "s" k
    ⟨1, [[some 1]]⟩ [meta] (oneStore_lookup meta) rfl (by norm_num) hk hq
  rw [heq, topIndices_one ⟨1, [[some 1]]⟩ _ rfl _ (lt_min hk (by norm_num))]
  rfl

/-! ## Claim C8 -/

/-- Claim C8 (amended): for an aligned persisted session with `n ≥ 1`
indexed vectors, any `k ≥ 1` and a query whose embedding has the index's
width, `retrieve_chunks` searches for `min(k, n)` nearest neighbors by
inner product and returns, best match first, the corresponding metadata
entries truncated to their first 500 characters: the result is exactly the
top-`min(k, n)` row positions mapped through `chunks[i][:500]`, has length
`min(k, n)` (so `k` larger than `n` returns all `n` entries without an
out-of-range error), its similarity scores are non-increasing, and every
selected row's score dominates every non-selected row's score.  (The
unamended claim — the returned strings are the metadata entries themselves
— fails when an entry exceeds 500 characters, which the code truncates.) -/
theorem c8_retrieval_ranked (embed : Str → List NFloat) (store : Store)
    (query : Str) (s : SessionId) (k : Nat) (index : FaissIndex)
    (chunks : List Str)
    (hstore : store s = some (index, chunks))
    (halign : index.vecs.length = chunks.length)
    (hn : 0 < chunks.length) (hk : 0 < k)
    (hq : (normRow (embed (query.take 200))).length = index.dim) :
    retrieve_chunks embed store query s k =
      (topIndices index (normRow (embed (query.take 200)))
        (min k chunks.length)).map (fun i => (chunks.getD i []).take 500) ∧
    (retrieve_chunks embed store query s k).length = min k chunks.length ∧
    (topIndices index (normRow (embed (query.take 200)))
      (min k chunks.length)).Pairwise
        (fun i j => nfLe (simScore index (normRow (embed (query.take 200))) j)
          (simScore index (normRow (embed (query.take 200))) i)) ∧
    (∀ i ∈ topIndices index (normRow (embed (query.take 200)))
        (min k chunks.length),
      ∀ j, j < chunks.length →
        j ∉ topIndices index (normRow (embed (query.take 200)))
          (min k chunks.length) →
        nfLe (simScore index (normRow (embed (query.take 200))) j)
          (simScore index (normRow (embed (query.take 200))) i)) := by
  have heq := retrieve_chunks_eq embed store query s k index chunks hstore
    halign hn hk hq
  refine ⟨heq, ?_, topIndices_sorted _ _ _, ?_⟩
  · rw [heq, List.length_map, topIndices_length]
    omega
  · intro i hi j hj hjn
    exact topIndices_dominates hi (by omega) hjn

theorem c8_retrieval_ranked_witness :
    (oneStore ['m', 'n'] "s" = some (⟨1, [[some 1]]⟩, [['m', 'n']]) ∧
      (0 : Nat) < ([['m', 'n']] : List Str).length ∧ (0 : Nat) < 5 ∧
      (normRow (embed1 ((['q'] : Str).take 200))).length =
        (⟨1, [[some 1]]⟩ : FaissIndex).dim) ∧
    (retrieve_chunks embed1 (oneStore ['m', 'n']) ['q'] "s" 5 =
      (topIndices ⟨1, [[some 1]]⟩ (normRow (embed1 ((['q'] : Str).take 200)))
        (min 5 ([['m', 'n']] : List Str).length)).map
          (fun i => (([['m', 'n']] : List Str).getD i []).take 500) ∧
    (retrieve_chunks embed1 (oneStore ['m', 'n']) ['q'] "s" 5).length =
      min 5 ([['m', 'n']] : List Str).length ∧
    (topIndices ⟨1, [[some 1]]⟩ (normRow (embed1 ((['q'] : Str).take 200)))
      (min 5 ([['m', 'n']] : List Str).length)).Pairwise
        (fun i j =>
          nfLe (simScore ⟨1, [[some 1]]⟩
              (normRow (embed1 ((['q'] : Str).take 200))) j)
            (simScore ⟨1, [[some 1]]⟩
              (normRow (embed1 ((['q'] : Str).take 200))) i)) ∧
    (∀ i ∈ topIndices ⟨1, [[some 1]]⟩
        (normRow (embed1 ((['q'] : Str).take 200)))
        (min 5 ([['m', 'n']] : List Str).length),
      ∀ j, j < ([['m', 'n']] : List Str).length →
        j ∉ topIndices ⟨1, [[some 1]]⟩
          (normRow (embed1 ((['q'] : Str).take 200)))
          (min 5 ([['m', 'n']] : List Str).length) →
        nfLe (simScore ⟨1, [[some 1]]⟩
            (normRow (embed1 ((['q'] : Str).take 200))) j)
          (simScore ⟨1, [[some 1]]⟩
            (normRow (embed1 ((['q'] : Str).take 200))) i))) := by
  have hq : (normRow (embed1 ((['q'] : Str).take 200))).length =
      (⟨1, [[some 1]]⟩ : FaissIndex).dim := by
    have he : embed1 ((['q'] : Str).take 200) = [some 1] := rfl
    rw [he, normRow_unit]
    rfl
  exact ⟨⟨oneStore_lookup ['m', 'n'], by norm_num, by norm_num, hq⟩,
    c8_retrieval_ranked embed1 (oneStore ['m', 'n']) ['q'] "s" 5
      ⟨1, [[some 1]]⟩ [['m', 'n']] (oneStore_lookup ['m', 'n']) rfl
      (by norm_num) (by norm_num) hq⟩

/-- Claim C8 counterexample: the claim as stated says the returned strings
are the corresponding metadata entries.  For a session whose single
metadata entry has 501 characters, retrieval returns the entry truncated
to 500 characters, which differs from the entry. -/
theorem c8_counterexample :
    oneStore (List.replicate 501 'a') "s" =
      some (⟨1, [[some 1]]⟩, [List.replicate 501 'a']) ∧
    retrieve_chunks embed1 (oneStore (List.replicate 501 'a')) ['q'] "s" 1 =
      [List.replicate 500 'a'] ∧
    ([List.replicate 500 'a'] : List Str) ≠ [List.replicate 501 'a'] := by
  refine ⟨oneStore_lookup _, ?_, ?_⟩
  · rw [retrieve_oneStore (List.replicate 501 'a') ['q'] 1 (by norm_num)]
    rw [List.take_replicate]
    norm_num
  · simp only [ne_eq, List.cons.injEq, and_true]
    intro h
    have h2 := congrArg List.length h
    rw [List.length_replicate, List.length_replicate] at h2
    norm_num at h2

theorem c10_truncation_witness :
    (['h', 'i'] : Str) ∈ retrieve_chunks embed1 (oneStore ['h', 'i']) ['q'] "s" 1 ∧
    ((['h', 'i'] : Str).length ≤ 500 ∧
      ∃ index chunks c, oneStore ['h', 'i'] "s" = some (index, chunks) ∧
        c ∈ chunks ∧ (['h', 'i'] : Str) = c.take 500) := by
  have hret : retrieve_chunks embed1 (oneStore ['h', 'i']) ['q'] "s" 1 =
      [['h', 'i']] := by
    rw [retrieve_oneStore ['h', 'i'] ['q'] 1 (by norm_num),
      List.take_of_length_le (by norm_num)]
  have hmem : (['h', 'i'] : Str) ∈
      retrieve_chunks embed1 (oneStore ['h', 'i']) ['q'] "s" 1 := by
    rw [hret]
    simp
  exact ⟨hmem,
    (c10_truncation embed1 (oneStore ['h', 'i']) ['q'] "s" 1).2 _ hmem⟩

/-! ## Claim C3 -/

/-- Claim C3 (amended): when no artifact pair exists for the session,
`load_index` does raise FileNotFoundError, but `retrieve_chunks` wraps its
whole body in a catch-all `except` clause and returns the empty list, so
the NotFound error is swallowed rather than surfaced to the caller of
`retrieve_chunks`. -/
theorem c3_missing_session (embed : Str → List NFloat) (store : Store)
    (query : Str) (s : SessionId) (k : Nat) (h : store s = none) :
    load_index store s =
      .error "FileNotFoundError: FAISS index not found." ∧
    retrieve_chunks embed store query s k = [] := by
  have hload : load_index store s =
      .error "FileNotFoundError: FAISS index not found." := by
    rw [load_index, h]
  exact ⟨hload, by rw [retrieve_chunks, retrieve_chunks_core, hload]⟩

theorem c3_missing_session_witness :
    emptyStore "s" = none ∧
    (load_index emptyStore "s" =
        .error "FileNotFoundError: FAISS index not found." ∧
      retrieve_chunks embed1 emptyStore ['x'] "s" 3 = []) := by
  exact ⟨rfl, c3_missing_session embed1 emptyStore ['x'] "s" 3 rfl⟩

/-- Claim C3 counterexample: the claim says retrieval on a session with no
persisted artifacts fails with a NotFound error surfaced directly to the
caller and does not silently return a normal result.  In fact `load_index`
raises, but `retrieve_chunks` returns the empty list — a normal result —
to its caller. -/
theorem c3_counterexample :
    retrieve_chunks embed1 emptyStore ['q'] "s" 2 = [] ∧
    load_index emptyStore "s" =
      .error "FileNotFoundError: FAISS index not found." :=
  ⟨rfl, rfl⟩

/-! ## Claim C4 -/

/-- Claim C4 (amended): `load_index` performs no validation whatsoever on
the loaded pair: an artifact pair whose index and metadata lengths
disagree is loaded and returned successfully — no ArtifactCorruption (or
any other) error is raised at load time, and the mismatched pair may then
be used to answer a search. -/
theorem c4_no_corruption_check (store : Store) (s : SessionId)
    (index : FaissIndex) (chunks : List Str)
    (h : store s = some (index, chunks))
    (_hmis : index.vecs.length ≠ chunks.length) :
    load_index store s = .ok (index, chunks) := by
  rw [load_index, h]

/-- The corrupted store of the C4 witness and counterexample: two index
rows but a single metadata entry. -/
def mismStore : Store :=
  storeUpdate emptyStore "s" (⟨1, [[some 1], [some 0]]⟩, [['m']])

theorem mismStore_lookup :
    mismStore "s" = some (⟨1, [[some 1], [some 0]]⟩, [['m']]) := by
  rw [mismStore, storeUpdate]
  simp

theorem c4_no_corruption_check_witness :
    (mismStore "s" = some (⟨1, [[some 1], [some 0]]⟩, [['m']]) ∧
      (⟨1, [[some 1], [some 0]]⟩ : FaissIndex).vecs.length ≠
        ([['m']] : List Str).length) ∧
    load_index mismStore "s" = .ok (⟨1, [[some 1], [some 0]]⟩, [['m']]) := by
  refine ⟨⟨mismStore_lookup, by norm_num⟩, ?_⟩
  exact c4_no_corruption_check mismStore "s" ⟨1, [[some 1], [some 0]]⟩
    [['m']] mismStore_lookup (by norm_num)

/-- Claim C4 counterexample: the claim says an artifact pair whose lengths
disagree is rejected at load time with a distinct ArtifactCorruption error
and never used to answer a query.  In fact, for a store holding two index
rows but one metadata entry, `load_index` returns the mismatched pair
successfully and `retrieve_chunks` answers a query from it. -/
theorem c4_counterexample :
    mismStore "s" = some (⟨1, [[some 1], [some 0]]⟩, [['m']]) ∧
    (⟨1, [[some 1], [some 0]]⟩ : FaissIndex).vecs.length ≠
      ([['m']] : List Str).length ∧
    load_index mismStore "s" = .ok (⟨1, [[some 1], [some 0]]⟩, [['m']]) ∧
    retrieve_chunks embed1 mismStore ['q'] "s" 1 = [['m']] := by
  have hload : load_index mismStore "s" =
      .ok (⟨1, [[some 1], [some 0]]⟩, [['m']]) := by
    rw [load_index, mismStore_lookup]
  refine ⟨mismStore_lookup, by norm_num, hload, ?_⟩
  have hqv : normalize_embeddings (embed_texts embed1 [(['q'] : Str).take 200]) =
      [[some 1]] := by
    rw [normalize_embed_texts]
    simp only [List.map_cons, List.map_nil]
    rw [show embed1 ((['q'] : Str).take 200) = [some 1] from rfl, normRow_unit]
  have hscore0 : simScore ⟨1, [[some 1], [some 0]]⟩ [some 1] 0 = some 1 := by
    rw [simScore]
    show ipNF [some 1] [some 1] = some 1
    rw [ipNF]
    show nfSum [nfMul (some 1) (some 1)] = some 1
    rw [nfSum]
    show nfAdd (nfMul (some 1) (some 1)) (some 0) = some 1
    rw [nfMul, nfAdd]
    norm_num
  have hscore1 : simScore ⟨1, [[some 1], [some 0]]⟩ [some 1] 1 = some 0 := by
    rw [simScore]
    show ipNF [some 0] [some 1] = some 0
    rw [ipNF]
    show nfSum [nfMul (some 0) (some 1)] = some 0
    rw [nfSum]
    show nfAdd (nfMul (some 0) (some 1)) (some 0) = some 0
    rw [nfMul, nfAdd]
    norm_num
  have hcmp : nfLeB (simScore ⟨1, [[some 1], [some 0]]⟩ [some 1] 1)
      (simScore ⟨1, [[some 1], [some 0]]⟩ [some 1] 0) = true := by
    rw [hscore1, hscore0]
    show decide ((0 : ℝ) ≤ 1) = true
    rw [decide_eq_true_eq]
    norm_num
  have hsorted : List.Pairwise
      (fun a b => (nfLeB (simScore ⟨1, [[some 1], [some 0]]⟩ [some 1] b)
        (simScore ⟨1, [[some 1], [some 0]]⟩ [some 1] a)) = true)
      [0, 1] := by
    refine List.Pairwise.cons ?_ (List.pairwise_singleton _ _)
    intro b hb
    rw [List.mem_singleton] at hb
    subst hb
    exact hcmp
  have htop : topIndices ⟨1, [[some 1], [some 0]]⟩ [some 1] 1 = [0] := by
    rw [topIndices]
    rw [show (⟨1, [[some 1], [some 0]]⟩ : FaissIndex).vecs.length = 2 from rfl]
    rw [show List.range 2 = [0, 1] from rfl]
    rw [List.mergeSort_of_sorted hsorted]
    rfl
  have hsearch : faissSearch ⟨1, [[some 1], [some 0]]⟩ [some 1] 1 =
      .ok [(0 : Int)] := by
    rw [faissSearch]
    rw [if_neg (fun hne => hne rfl), if_neg (by norm_num), htop]
    rfl
  have hcore : retrieve_chunks_core embed1 mismStore ['q'] "s" 1 =
      .ok [['m']] := by
    rw [retrieve_chunks_core, hload]
    simp only
    rw [hqv]
    simp only [List.getD_cons_zero]
    rw [show (min 1 ([['m']] : List Str).length) = 1 from rfl, hsearch]
    simp only
    rw [show [(0 : Int)] = ([0] : List Nat).map (fun i : Nat => (i : Int))
      from rfl]
    rw [mapM_pyGet_ok [['m']] [0] (by norm_num)]
    rfl
  rw [retrieve_chunks, hcore]
